import Mathlib

/-!
Verification development for the chunking core of the docling-rs repository.

The definitions below are a shallow embedding of the Rust sources:
  - src/datamodel/node.rs and src/datamodel/document.rs (document model),
  - src/chunking/metadata.rs and src/chunking/base.rs (chunk value types, errors),
  - src/chunking/tokenizer/base.rs (tokenizer interface),
  - src/chunking/hierarchical.rs (structural chunker and contextualize),
  - src/chunking/hybrid.rs (hybrid chunker: builder, split pass, merge pass).

Conventions of the embedding:
  - Rust `usize` values (offsets, indices, token counts) are `Nat`; no arithmetic
    here can overflow in practice and the source performs no wrapping arithmetic.
  - Rust `String::len()` (the byte length of UTF-8 text) is `String.utf8ByteSize`.
  - Rust `text.trim().is_empty()` is embedded as "every character is whitespace",
    which is exactly the condition under which trimming leaves the empty string.
  - Rust `str::split_whitespace()` (maximal runs of non-whitespace characters)
    is `splitWhitespace`, built from a character-level split.
  - The trait object `Box<dyn Tokenizer>` becomes a `Tokenizer` structure holding
    the `count_tokens` function and the `max_tokens` constant; determinism and
    purity of `count_tokens` are automatic for a Lean function.
  - Iterators materialise as lists: both Rust implementations collect all chunks
    into a `Vec` before returning a boxed iterator, so the list of emitted chunks
    is the exact observable behaviour.
  - The document metadata map is omitted: the chunker never reads it.
-/

/-- Source position of a node (src/datamodel/node.rs, struct SourcePosition). -/
structure SourcePosition where
  start_offset : Nat
  end_offset : Nat
  start_line : Nat
  end_line : Nat
deriving DecidableEq, Repr

/-- Node type tag (src/datamodel/node.rs, enum NodeType). The chunker never
branches on it. -/
inductive NodeType where
  | Text
  | Heading
  | Paragraph
  | List
  | ListItem
  | Table
  | TableRow
  | TableCell
deriving DecidableEq, Repr

/-- Inner node payload (src/datamodel/node.rs, struct NodeItem). -/
structure NodeItem where
  node_type : NodeType
  text_content : Option String
  position : Option SourcePosition
deriving DecidableEq, Repr

/-- Document node (src/datamodel/node.rs, struct DocumentNode). -/
structure DocumentNode where
  item : NodeItem
deriving DecidableEq, Repr

/-- Accessor DocumentNode::text_content. -/
def DocumentNode.text_content (n : DocumentNode) : Option String :=
  n.item.text_content

/-- Accessor DocumentNode::position. -/
def DocumentNode.position (n : DocumentNode) : Option SourcePosition :=
  n.item.position

/-- Document (src/datamodel/document.rs, struct DoclingDocument); the metadata
map is omitted because the chunker never consults it. -/
structure DoclingDocument where
  name : String
  nodes : List DocumentNode
deriving DecidableEq, Repr

/-- Chunk metadata (src/chunking/metadata.rs, struct ChunkMetadata). -/
structure ChunkMetadata where
  doc_name : String
  headings : List String
  caption : Option String
  start_offset : Nat
  end_offset : Nat
  index : Nat
deriving DecidableEq, Repr

/-- A chunk (src/chunking/base.rs, struct BaseChunk). -/
structure BaseChunk where
  text : String
  meta : ChunkMetadata
deriving DecidableEq, Repr

/-- Tokenizer interface (src/chunking/tokenizer/base.rs, trait Tokenizer):
a deterministic token counter together with the model token budget. -/
structure Tokenizer where
  count_tokens : String → Nat
  max_tokens : Nat

/-- Error type (src/chunking/base.rs, enum ChunkingError); the serde payload of
SerializationError is reduced to its message. -/
inductive ChunkingError where
  | TokenizerLoad (msg : String)
  | InvalidConfig (msg : String)
  | ProcessingError (msg : String)
  | SerializationError (msg : String)
deriving DecidableEq, Repr

/-- Structural chunker configuration (src/chunking/hierarchical.rs,
struct HierarchicalChunker). -/
structure HierarchicalChunker where
  merge_list_items : Bool
deriving DecidableEq, Repr

/-- HierarchicalChunker::new (merge_list_items defaults to true). -/
def HierarchicalChunker.new : HierarchicalChunker :=
  { merge_list_items := true }

/-- The node loop of HierarchicalChunker::chunk: one chunk per node with text
that is not whitespace-only, with the two mutable counters (current_offset and
chunk_index) made explicit arguments. -/
def chunkNodes (doc_name : String) : List DocumentNode → Nat → Nat → List BaseChunk
  | [], _, _ => []
  | node :: rest, current_offset, chunk_index =>
    match node.text_content with
    | none => chunkNodes doc_name rest current_offset chunk_index
    | some text =>
      if text.data.all Char.isWhitespace then
        chunkNodes doc_name rest current_offset chunk_index
      else
        match node.position with
        | some pos =>
          { text := text,
            meta := { doc_name := doc_name, headings := [], caption := none,
                      start_offset := pos.start_offset, end_offset := pos.end_offset,
                      index := chunk_index } } ::
            chunkNodes doc_name rest pos.end_offset (chunk_index + 1)
        | none =>
          { text := text,
            meta := { doc_name := doc_name, headings := [], caption := none,
                      start_offset := current_offset,
                      end_offset := current_offset + text.utf8ByteSize,
                      index := chunk_index } } ::
            chunkNodes doc_name rest (current_offset + text.utf8ByteSize + 1) (chunk_index + 1)

/-- HierarchicalChunker::chunk (src/chunking/hierarchical.rs). -/
def HierarchicalChunker.chunk (_ : HierarchicalChunker) (doc : DoclingDocument) :
    List BaseChunk :=
  chunkNodes doc.name doc.nodes 0 0

/-- The contextualization of HierarchicalChunker::contextualize: each heading
followed by a newline, then the caption followed by a newline when present,
then the chunk text. -/
def contextualizeChunk (chunk : BaseChunk) : String :=
  let withHeadings := chunk.meta.headings.foldl (fun acc h => acc ++ h ++ "\n") ""
  let withCaption :=
    match chunk.meta.caption with
    | some caption => withHeadings ++ caption ++ "\n"
    | none => withHeadings
  withCaption ++ chunk.text

/-- HierarchicalChunker::contextualize. -/
def HierarchicalChunker.contextualize (_ : HierarchicalChunker) (chunk : BaseChunk) :
    String :=
  contextualizeChunk chunk

/-- Hybrid chunker (src/chunking/hybrid.rs, struct HybridChunker). -/
structure HybridChunker where
  tokenizer : Tokenizer
  max_tokens : Nat
  merge_peers : Bool
  hierarchical : HierarchicalChunker

/-- HybridChunker::new: budget taken from the tokenizer, merge_peers true,
no validation of any kind. -/
def HybridChunker.new (tokenizer : Tokenizer) : HybridChunker :=
  { tokenizer := tokenizer, max_tokens := tokenizer.max_tokens,
    merge_peers := true, hierarchical := HierarchicalChunker.new }

/-- Builder (src/chunking/hybrid.rs, struct HybridChunkerBuilder). -/
structure HybridChunkerBuilder where
  tokenizer : Option Tokenizer
  max_tokens : Option Nat
  merge_peers : Bool

/-- HybridChunkerBuilder::new. -/
def HybridChunkerBuilder.new : HybridChunkerBuilder :=
  { tokenizer := none, max_tokens := none, merge_peers := true }

/-- HybridChunkerBuilder::build: fails when no tokenizer was supplied or when
the effective budget (explicit, or defaulted to tokenizer.max_tokens()) is 0. -/
def HybridChunkerBuilder.build (b : HybridChunkerBuilder) :
    Except ChunkingError HybridChunker :=
  match b.tokenizer with
  | none => Except.error (ChunkingError.InvalidConfig "tokenizer is required")
  | some tokenizer =>
    let max_tokens := b.max_tokens.getD tokenizer.max_tokens
    if max_tokens = 0 then
      Except.error (ChunkingError.InvalidConfig "max_tokens must be greater than 0")
    else
      Except.ok { tokenizer := tokenizer, max_tokens := max_tokens,
                  merge_peers := b.merge_peers, hierarchical := HierarchicalChunker.new }

/-- HybridChunker::contextualize delegates to the hierarchical contextualizer. -/
def HybridChunker.contextualize (_ : HybridChunker) (chunk : BaseChunk) : String :=
  contextualizeChunk chunk

/-- Character-level split at whitespace characters: the pieces (possibly empty)
between whitespace characters of the list, in order.  Rust str::split_whitespace
is this split followed by discarding empty pieces. -/
def splitChars (l : List Char) : List (List Char) :=
  l.foldr
    (fun c ws =>
      if c.isWhitespace then [] :: ws
      else
        match ws with
        | [] => [[c]]
        | w :: rest => (c :: w) :: rest)
    [[]]

/-- The non-empty pieces: the maximal runs of non-whitespace characters. -/
def wordsOfChars (l : List Char) : List (List Char) :=
  (splitChars l).filter (fun w => !w.isEmpty)

/-- Embedding of Rust str::split_whitespace on a String.  (Rust splits at
Unicode whitespace; Char.isWhitespace covers the whitespace occurring in this
codebase and its tests.) -/
def splitWhitespace (s : String) : List String :=
  (wordsOfChars s.data).map (fun w => String.mk w)

/-- The chunk pushed by the split pass when it flushes its accumulator:
metadata inherited from the source chunk, offsets recomputed from the
accumulator byte length. -/
def flushChunk (chunk : BaseChunk) (current_text : String)
    (current_start chunk_index : Nat) : BaseChunk :=
  { text := current_text,
    meta := { doc_name := chunk.meta.doc_name, headings := chunk.meta.headings,
              caption := chunk.meta.caption, start_offset := current_start,
              end_offset := current_start + current_text.utf8ByteSize,
              index := chunk_index } }

/-- One iteration of the word loop of HybridChunker::split_oversized_chunk.
State: (result, current_text, current_start, chunk_index). -/
def splitStep (tokenizer : Tokenizer) (max_tokens : Nat) (chunk : BaseChunk)
    (st : List BaseChunk × String × Nat × Nat) (word : String) :
    List BaseChunk × String × Nat × Nat :=
  let result := st.1
  let current_text := st.2.1
  let current_start := st.2.2.1
  let chunk_index := st.2.2.2
  let test_text := if current_text = "" then word else current_text ++ " " ++ word
  let test_tokens :=
    tokenizer.count_tokens (contextualizeChunk { text := test_text, meta := chunk.meta })
  if max_tokens < test_tokens ∧ ¬ current_text = "" then
    (result ++ [flushChunk chunk current_text current_start chunk_index],
     word, current_start + current_text.utf8ByteSize + 1, chunk_index + 1)
  else
    (result, test_text, current_start, chunk_index)

/-- HybridChunker::split_oversized_chunk (src/chunking/hybrid.rs): a chunk whose
contextualized token count fits the budget is returned as is; otherwise its text
is split on whitespace and the words are greedily repacked. -/
def HybridChunker.split_oversized_chunk (self : HybridChunker) (chunk : BaseChunk) :
    List BaseChunk :=
  let contextualized := contextualizeChunk chunk
  let token_count := self.tokenizer.count_tokens contextualized
  if token_count ≤ self.max_tokens then [chunk]
  else
    let words := splitWhitespace chunk.text
    if words.isEmpty then [chunk]
    else
      let st := words.foldl (splitStep self.tokenizer self.max_tokens chunk)
        ([], "", chunk.meta.start_offset, chunk.meta.index)
      if st.2.1 = "" then st.1
      else st.1 ++ [flushChunk chunk st.2.1 st.2.2.1 st.2.2.2]

/-- One iteration of the chunk loop of HybridChunker::merge_undersized_peers.
State: (result, current). -/
def mergeStep (tokenizer : Tokenizer) (max_tokens : Nat)
    (st : List BaseChunk × Option BaseChunk) (chunk : BaseChunk) :
    List BaseChunk × Option BaseChunk :=
  match st.2 with
  | none => (st.1, some chunk)
  | some prev =>
    if prev.meta.headings = chunk.meta.headings ∧ prev.meta.caption = chunk.meta.caption then
      let merged_text := prev.text ++ " " ++ chunk.text
      let token_count :=
        tokenizer.count_tokens (contextualizeChunk { text := merged_text, meta := prev.meta })
      if token_count ≤ max_tokens then
        (st.1, some { text := merged_text,
                      meta := { prev.meta with end_offset := chunk.meta.end_offset } })
      else
        (st.1 ++ [prev], some chunk)
    else
      (st.1 ++ [prev], some chunk)

/-- The final re-indexing loop of HybridChunker::merge_undersized_peers:
chunk i of the result receives index i. -/
def reindexChunks (chunks : List BaseChunk) : List BaseChunk :=
  chunks.enum.map (fun p => { p.2 with meta := { p.2.meta with index := p.1 } })

/-- HybridChunker::merge_undersized_peers (src/chunking/hybrid.rs): when
merge_peers is off or the input is empty the input is returned untouched
(without re-indexing); otherwise adjacent chunks with identical headings and
caption are merged while the merged contextualization fits the budget, and the
result is re-indexed densely. -/
def HybridChunker.merge_undersized_peers (self : HybridChunker)
    (chunks : List BaseChunk) : List BaseChunk :=
  if self.merge_peers = false ∨ chunks.isEmpty then chunks
  else
    let st := chunks.foldl (mergeStep self.tokenizer self.max_tokens) ([], none)
    let result :=
      match st.2 with
      | some chunk => st.1 ++ [chunk]
      | none => st.1
    reindexChunks result

/-- HybridChunker::chunk (src/chunking/hybrid.rs): hierarchical pass, then the
split pass over every chunk, then the merge pass. -/
def HybridChunker.chunk (self : HybridChunker) (doc : DoclingDocument) :
    List BaseChunk :=
  let hierarchical_chunks := self.hierarchical.chunk doc
  let split_chunks := hierarchical_chunks.flatMap (fun c => self.split_oversized_chunk c)
  self.merge_undersized_peers split_chunks

/-- Recursive form of the split-pass word loop, used for reasoning; it carries
the running accumulator and produces the flushed chunks including the final
flush.  Proved equal to the foldl in the definition above. -/
def splitLoop (tokenizer : Tokenizer) (max_tokens : Nat) (chunk : BaseChunk) :
    List String → String → Nat → Nat → List BaseChunk
  | [], current_text, current_start, chunk_index =>
    if current_text = "" then []
    else [flushChunk chunk current_text current_start chunk_index]
  | word :: ws, current_text, current_start, chunk_index =>
    let test_text := if current_text = "" then word else current_text ++ " " ++ word
    let test_tokens :=
      tokenizer.count_tokens (contextualizeChunk { text := test_text, meta := chunk.meta })
    if max_tokens < test_tokens ∧ ¬ current_text = "" then
      flushChunk chunk current_text current_start chunk_index ::
        splitLoop tokenizer max_tokens chunk ws word
          (current_start + current_text.utf8ByteSize + 1) (chunk_index + 1)
    else
      splitLoop tokenizer max_tokens chunk ws test_text current_start chunk_index

/-- Recursive form of the merge-pass loop, used for reasoning.  Proved equal to
the foldl in the definition above. -/
def mergeLoop (tokenizer : Tokenizer) (max_tokens : Nat) :
    BaseChunk → List BaseChunk → List BaseChunk
  | prev, [] => [prev]
  | prev, chunk :: rest =>
    if prev.meta.headings = chunk.meta.headings ∧ prev.meta.caption = chunk.meta.caption then
      if tokenizer.count_tokens
            (contextualizeChunk { text := prev.text ++ " " ++ chunk.text, meta := prev.meta }) ≤
          max_tokens then
        mergeLoop tokenizer max_tokens
          { text := prev.text ++ " " ++ chunk.text,
            meta := { prev.meta with end_offset := chunk.meta.end_offset } } rest
      else
        prev :: mergeLoop tokenizer max_tokens chunk rest
    else
      prev :: mergeLoop tokenizer max_tokens chunk rest

/-- The final flush of the split pass, as a function of the loop state. -/
def splitFinish (chunk : BaseChunk) (st : List BaseChunk × String × Nat × Nat) :
    List BaseChunk :=
  if st.2.1 = "" then st.1
  else st.1 ++ [flushChunk chunk st.2.1 st.2.2.1 st.2.2.2]

/-- The final emission of the merge pass, as a function of the loop state. -/
def mergeFinish (st : List BaseChunk × Option BaseChunk) : List BaseChunk :=
  match st.2 with
  | some chunk => st.1 ++ [chunk]
  | none => st.1

/-- Recursive form of the re-indexing loop: chunk k of the list receives
index n + k. -/
def reindexFrom : Nat → List BaseChunk → List BaseChunk
  | _, [] => []
  | n, chunk :: rest =>
    { chunk with meta := { chunk.meta with index := n } } :: reindexFrom (n + 1) rest

/-- Indices are dense and 0-based: chunk i carries index i. -/
def denseIndices (chunks : List BaseChunk) : Prop :=
  chunks.map (fun c => c.meta.index) = List.range chunks.length

/-- Two chunks in sequence do not overlap (invariant I3 of the spec). -/
def chunkNonOverlap (a b : BaseChunk) : Prop :=
  a.meta.end_offset ≤ b.meta.start_offset

instance : DecidableRel chunkNonOverlap :=
  fun a b => inferInstanceAs (Decidable (a.meta.end_offset ≤ b.meta.start_offset))

/-- Every adjacent pair of emitted chunks is non-overlapping. -/
def nonOverlapping : List BaseChunk → Prop
  | a :: b :: rest => chunkNonOverlap a b ∧ nonOverlapping (b :: rest)
  | _ => True

instance nonOverlapping.inst : (l : List BaseChunk) → Decidable (nonOverlapping l)
  | [] => isTrue trivial
  | [_] => isTrue trivial
  | a :: b :: rest =>
    have := nonOverlapping.inst (b :: rest)
    inferInstanceAs (Decidable (chunkNonOverlap a b ∧ nonOverlapping (b :: rest)))

instance (l : List BaseChunk) : Decidable (denseIndices l) :=
  inferInstanceAs (Decidable (_ = _))

/-- Offsets of the list are weakly monotone starting at lo: each chunk starts
at or after lo, starts no later than it ends, and the rest continues from its
end. -/
def offsetsOk : Nat → List BaseChunk → Prop
  | _, [] => True
  | lo, chunk :: rest =>
    lo ≤ chunk.meta.start_offset ∧ chunk.meta.start_offset ≤ chunk.meta.end_offset ∧
      offsetsOk chunk.meta.end_offset rest

/-- Byte length of a character list (the UTF-8 byte size of the string it spells). -/
def charBytes (l : List Char) : Nat :=
  (l.map Char.utf8Size).sum

/-- Byte cost of appending each word to a non-empty accumulator: one separator
byte plus the word bytes. -/
def extraAll (ws : List String) : Nat :=
  (ws.map (fun w => 1 + w.utf8ByteSize)).sum

/-- Byte length of the single-space join of a word list. -/
def joinLen : List String → Nat
  | [] => 0
  | w :: ws => w.utf8ByteSize + extraAll ws

/-- Spec wording of the contextualizer (section 4.2 of the spec): each heading
followed by a newline. -/
def headingsBlock : List String → String
  | [] => ""
  | h :: hs => h ++ "\n" ++ headingsBlock hs

/-- Spec wording of the contextualizer: heading block, then caption followed by
a newline when present, then the chunk text; absent sections contribute
nothing. -/
def contextualizeSpec (c : BaseChunk) : String :=
  headingsBlock c.meta.headings ++
    (match c.meta.caption with
     | some caption => caption ++ "\n"
     | none => "") ++ c.text

/-- A paragraph node with the given text and no source position. -/
def mkNode (t : String) : DocumentNode :=
  { item := { node_type := NodeType.Paragraph, text_content := some t, position := none } }

/-- A paragraph node with the given text and an explicit source position. -/
def mkNodeAt (t : String) (s e : Nat) : DocumentNode :=
  { item := { node_type := NodeType.Paragraph, text_content := some t,
              position := some { start_offset := s, end_offset := e,
                                 start_line := 1, end_line := 1 } } }

/-- A tokenizer that counts one token per UTF-8 byte. -/
def byteTokenizer : Tokenizer :=
  { count_tokens := fun s => s.utf8ByteSize, max_tokens := 5 }

/-- A tokenizer with token budget 0 (used against HybridChunker::new, which
performs no validation). -/
def zeroTokenizer : Tokenizer :=
  { count_tokens := fun _ => 0, max_tokens := 0 }

/-- A deterministic but non-monotone tokenizer: the single string "a b" counts
10 tokens, every other string counts 1. -/
def spikeTokenizer : Tokenizer :=
  { count_tokens := fun s => if s = "a b" then 10 else 1, max_tokens := 5 }

/-- Hybrid configuration for the C1 counterexample: byte tokenizer, budget 1,
merge pass disabled. -/
def hybridNoMerge : HybridChunker :=
  { tokenizer := byteTokenizer, max_tokens := 1, merge_peers := false,
    hierarchical := HierarchicalChunker.new }

/-- Document for the C1 counterexample: a two-word paragraph followed by a
one-word paragraph, no positions. -/
def docTwoWords : DoclingDocument :=
  { name := "d", nodes := [mkNode "a b", mkNode "c"] }

/-- Hybrid configuration for the C6 counterexample: spike tokenizer, budget 5,
merge pass enabled. -/
def hybridSpike : HybridChunker :=
  { tokenizer := spikeTokenizer, max_tokens := 5, merge_peers := true,
    hierarchical := HierarchicalChunker.new }

/-- Document for the C6 counterexample: three one-word paragraphs. -/
def docABC : DoclingDocument :=
  { name := "d", nodes := [mkNode "a", mkNode "b", mkNode "c"] }

/-- Document for the C2 counterexample: one single-word node carrying an
explicit source position whose end offset is 999. -/
def docBigWord : DoclingDocument :=
  { name := "d", nodes := [mkNodeAt "ab" 0 999] }

/-- Hybrid configuration for the C2 counterexample: byte tokenizer, budget 1,
merge pass enabled. -/
def hybridTight : HybridChunker :=
  { tokenizer := byteTokenizer, max_tokens := 1, merge_peers := true,
    hierarchical := HierarchicalChunker.new }

/-- Document for the C4 counterexample: two nodes carrying explicit,
out-of-order source positions. -/
def docBackwards : DoclingDocument :=
  { name := "d", nodes := [mkNodeAt "x" 100 200, mkNodeAt "y" 0 50] }

/-- Document of spec scenario 3: paragraphs A, B, CD without positions. -/
def docABCD : DoclingDocument :=
  { name := "doc", nodes := [mkNode "A", mkNode "B", mkNode "CD"] }

/-- Document of spec scenario 4: a whitespace-only node between two paragraphs. -/
def docBlank : DoclingDocument :=
  { name := "doc", nodes := [mkNode "A", mkNode "   ", mkNode "B"] }

/-- The ingredient of the structural pass that decides whether a node yields a
chunk, and with which text. -/
def keepNode (n : DocumentNode) : Option String :=
  match n.text_content with
  | some t => if t.data.all Char.isWhitespace then none else some t
  | none => none

/-- Hybrid configuration with a generous budget and the merge pass disabled. -/
def hybridNoMergeBig : HybridChunker :=
  { tokenizer := byteTokenizer, max_tokens := 100, merge_peers := false,
    hierarchical := HierarchicalChunker.new }

/-- The single chunk the hybrid chunker emits for docBigWord under hybridTight. -/
def chunkAB : BaseChunk :=
  { text := "ab",
    meta := { doc_name := "d", headings := [], caption := none,
              start_offset := 0, end_offset := 2, index := 0 } }

/-- First chunk of the hybrid output on docABC under hybridSpike. -/
def chunkA : BaseChunk :=
  { text := "a",
    meta := { doc_name := "d", headings := [], caption := none,
              start_offset := 0, end_offset := 1, index := 0 } }

/-- Second chunk of the hybrid output on docABC under hybridSpike: the merge of
the second and third structural chunks. -/
def chunkBC : BaseChunk :=
  { text := "b c",
    meta := { doc_name := "d", headings := [], caption := none,
              start_offset := 2, end_offset := 5, index := 1 } }

/-- A two-paragraph document without positions. -/
def docAB : DoclingDocument :=
  { name := "d", nodes := [mkNode "a", mkNode "b"] }

/-- Merge-locality relation between two adjacent emitted chunks: if they share
headings and caption, then some leading part t of the right chunk (its whole
text, or a prefix followed by one space and the rest) made the contextualized
trial merge with the left chunk exceed the budget at the moment the merge pass
separated them. -/
def mergeBlocked (tokenizer : Tokenizer) (max_tokens : Nat) (x y : BaseChunk) : Prop :=
  x.meta.headings = y.meta.headings → x.meta.caption = y.meta.caption →
    ∃ t, (y.text = t ∨ ∃ r, y.text = t ++ " " ++ r) ∧
      max_tokens < tokenizer.count_tokens
        (contextualizeChunk { text := x.text ++ " " ++ t, meta := x.meta })

/-- The single structural chunk of docBigWord: its explicit position gives it
end_offset 999. -/
def chunkAB999 : BaseChunk :=
  { text := "ab",
    meta := { doc_name := "d", headings := [], caption := none,
              start_offset := 0, end_offset := 999, index := 0 } }

/-! ### General helper lemmas -/

theorem string_data_append (a b : String) : (a ++ b).data = a.data ++ b.data := rfl

theorem utf8ByteSize_go_eq (l : List Char) : String.utf8ByteSize.go l = charBytes l := by
  induction l with
  | nil => rfl
  | cons c cs ih =>
    rw [show String.utf8ByteSize.go (c :: cs) = String.utf8ByteSize.go cs + c.utf8Size from rfl,
      ih]
    simp [charBytes]
    omega

theorem utf8ByteSize_eq_charBytes (s : String) : s.utf8ByteSize = charBytes s.data := by
  cases s with
  | mk data => simpa [String.utf8ByteSize] using utf8ByteSize_go_eq data

theorem charBytes_append (a b : List Char) :
    charBytes (a ++ b) = charBytes a + charBytes b := by
  simp [charBytes]

theorem utf8ByteSize_append (a b : String) :
    (a ++ b).utf8ByteSize = a.utf8ByteSize + b.utf8ByteSize := by
  simp [utf8ByteSize_eq_charBytes, string_data_append, charBytes_append]

theorem utf8ByteSize_space : (" " : String).utf8ByteSize = 1 := by decide

theorem charBytes_ge_length (l : List Char) : l.length ≤ charBytes l := by
  induction l with
  | nil => simp [charBytes]
  | cons c cs ih =>
    have := Char.utf8Size_pos c
    simp only [charBytes, List.map_cons, List.sum_cons, List.length_cons] at *
    omega

/-! ### Lemmas about the whitespace split -/

theorem splitChars_nil : splitChars [] = [[]] := rfl

theorem splitChars_cons (c : Char) (l : List Char) :
    splitChars (c :: l) =
      (if c.isWhitespace then [] :: splitChars l
       else
        match splitChars l with
        | [] => [[c]]
        | w :: rest => (c :: w) :: rest) := by
  simp [splitChars]

theorem splitChars_ne_nil (l : List Char) : splitChars l ≠ [] := by
  induction l with
  | nil => simp [splitChars_nil]
  | cons c cs ih =>
    rw [splitChars_cons]
    split
    · simp
    · cases h : splitChars cs with
      | nil => simp
      | cons w rest => simp

theorem mem_splitChars_no_ws (l : List Char) :
    ∀ w ∈ splitChars l, ∀ c ∈ w, c.isWhitespace = false := by
  induction l with
  | nil => simp [splitChars_nil]
  | cons c cs ih =>
    rw [splitChars_cons]
    split
    · intro w hw
      rcases List.mem_cons.1 hw with h | h
      · simp [h]
      · exact ih w h
    · rename_i hws
      cases h : splitChars cs with
      | nil => intro w hw d hd; simp at hw; subst hw; simp at hd; subst hd; simpa using hws
      | cons v rest =>
        intro w hw d hd
        rcases List.mem_cons.1 hw with h2 | h2
        · subst h2
          rcases List.mem_cons.1 hd with h3 | h3
          · subst h3; simpa using hws
          · exact ih v (h ▸ List.mem_cons_self v rest) d h3
        · exact ih w (h ▸ List.mem_cons_of_mem v h2) d hd

theorem splitChars_single_word (w : List Char) (hne : w ≠ [])
    (hws : ∀ c ∈ w, c.isWhitespace = false) : splitChars w = [w] := by
  induction w with
  | nil => simp at hne
  | cons c cs ih =>
    rw [splitChars_cons]
    have hc : c.isWhitespace = false := hws c (List.mem_cons_self c cs)
    rw [if_neg (by simp [hc])]
    cases cs with
    | nil => simp [splitChars_nil]
    | cons d ds =>
      have : splitChars (d :: ds) = [d :: ds] := by
        refine ih (by simp) ?_
        intro x hx
        exact hws x (List.mem_cons_of_mem c hx)
      rw [this]

theorem mem_wordsOfChars (l : List Char) :
    ∀ w ∈ wordsOfChars l, w ≠ [] ∧ ∀ c ∈ w, c.isWhitespace = false := by
  intro w hw
  have h := List.mem_filter.1 hw
  refine ⟨by simpa using h.2, mem_splitChars_no_ws l w h.1⟩

theorem mem_splitWhitespace_single (s : String) :
    ∀ w ∈ splitWhitespace s, splitWhitespace w = [w] ∧ w ≠ "" := by
  intro w hw
  rcases List.mem_map.1 hw with ⟨wl, hwl, hmk⟩
  rcases mem_wordsOfChars s.data wl hwl with ⟨hne, hws⟩
  subst hmk
  constructor
  · show ((splitChars wl).filter _).map _ = _
    rw [splitChars_single_word wl hne hws]
    simp [hne]
  · intro h
    exact hne (congrArg String.data h)

theorem wordsOfChars_eq_nil_iff (l : List Char) :
    wordsOfChars l = [] ↔ ∀ c ∈ l, c.isWhitespace = true := by
  induction l with
  | nil => simp [wordsOfChars, splitChars_nil, List.filter]
  | cons c cs ih =>
    unfold wordsOfChars
    rw [splitChars_cons]
    constructor
    · intro h
      split at h
      · rename_i hws
        intro d hd
        rcases List.mem_cons.1 hd with h2 | h2
        · subst h2; exact hws
        · refine (ih.1 ?_) d h2
          simpa [wordsOfChars, List.filter] using h
      · rename_i hws
        exfalso
        cases h2 : splitChars cs with
        | nil => exact splitChars_ne_nil cs h2
        | cons w rest => rw [h2] at h; simp [List.filter] at h
    · intro h
      have hc : c.isWhitespace = true := h c (List.mem_cons_self c cs)
      rw [if_pos hc]
      have : wordsOfChars cs = [] := ih.2 (fun d hd => h d (List.mem_cons_of_mem c hd))
      simpa [wordsOfChars, List.filter] using this

theorem splitWhitespace_ne_nil (s : String) (h : ¬ s.data.all Char.isWhitespace) :
    splitWhitespace s ≠ [] := by
  intro hnil
  apply h
  rw [List.all_eq_true]
  refine (wordsOfChars_eq_nil_iff s.data).1 ?_
  have : (wordsOfChars s.data).map (fun w => String.mk w) = [] := hnil
  simpa using this

/-! ### Contextualization only reads headings, caption, and text -/

theorem contextualizeChunk_congr (t : String) (m m2 : ChunkMetadata)
    (hh : m.headings = m2.headings) (hc : m.caption = m2.caption) :
    contextualizeChunk { text := t, meta := m } = contextualizeChunk { text := t, meta := m2 } := by
  simp [contextualizeChunk, hh, hc]

theorem contextualizeChunk_flush (chunk : BaseChunk) (t : String) (s i : Nat) :
    contextualizeChunk (flushChunk chunk t s i) =
      contextualizeChunk { text := t, meta := chunk.meta } := rfl

/-! ### The foldl loops equal their recursive forms -/

theorem splitStep_eq (tokenizer : Tokenizer) (max_tokens : Nat) (chunk : BaseChunk)
    (result : List BaseChunk) (cur : String) (s i : Nat) (w : String) :
    splitStep tokenizer max_tokens chunk (result, cur, s, i) w =
      (if max_tokens < tokenizer.count_tokens (contextualizeChunk
            { text := if cur = "" then w else cur ++ " " ++ w, meta := chunk.meta }) ∧
          ¬ cur = "" then
        (result ++ [flushChunk chunk cur s i], w, s + cur.utf8ByteSize + 1, i + 1)
       else (result, if cur = "" then w else cur ++ " " ++ w, s, i)) := rfl

theorem mergeStep_eq (tokenizer : Tokenizer) (max_tokens : Nat)
    (result : List BaseChunk) (prev chunk : BaseChunk) :
    mergeStep tokenizer max_tokens (result, some prev) chunk =
      (if prev.meta.headings = chunk.meta.headings ∧ prev.meta.caption = chunk.meta.caption then
        if tokenizer.count_tokens (contextualizeChunk
              { text := prev.text ++ " " ++ chunk.text, meta := prev.meta }) ≤ max_tokens then
          (result, some { text := prev.text ++ " " ++ chunk.text,
                          meta := { prev.meta with end_offset := chunk.meta.end_offset } })
        else (result ++ [prev], some chunk)
       else (result ++ [prev], some chunk)) := rfl

theorem splitFinish_foldl (tokenizer : Tokenizer) (max_tokens : Nat) (chunk : BaseChunk)
    (ws : List String) :
    ∀ (result : List BaseChunk) (cur : String) (s i : Nat),
      splitFinish chunk (ws.foldl (splitStep tokenizer max_tokens chunk) (result, cur, s, i)) =
        result ++ splitLoop tokenizer max_tokens chunk ws cur s i := by
  induction ws with
  | nil =>
    intro result cur s i
    simp only [List.foldl_nil, splitLoop, splitFinish]
    split <;> simp
  | cons w ws ih =>
    intro result cur s i
    rw [List.foldl_cons, splitStep_eq]
    simp only [splitLoop]
    by_cases hc : max_tokens < tokenizer.count_tokens (contextualizeChunk
        { text := if cur = "" then w else cur ++ " " ++ w, meta := chunk.meta }) ∧ ¬ cur = ""
    · rw [if_pos hc, if_pos hc, ih]
      simp
    · rw [if_neg hc, if_neg hc, ih]

theorem mergeFinish_foldl (tokenizer : Tokenizer) (max_tokens : Nat)
    (chunks : List BaseChunk) :
    ∀ (result : List BaseChunk) (prev : BaseChunk),
      mergeFinish (chunks.foldl (mergeStep tokenizer max_tokens) (result, some prev)) =
        result ++ mergeLoop tokenizer max_tokens prev chunks := by
  induction chunks with
  | nil =>
    intro result prev
    simp [mergeFinish, mergeLoop]
  | cons chunk rest ih =>
    intro result prev
    rw [List.foldl_cons, mergeStep_eq]
    simp only [mergeLoop]
    by_cases h1 : prev.meta.headings = chunk.meta.headings ∧
        prev.meta.caption = chunk.meta.caption
    · rw [if_pos h1, if_pos h1]
      by_cases h2 : tokenizer.count_tokens (contextualizeChunk
          { text := prev.text ++ " " ++ chunk.text, meta := prev.meta }) ≤ max_tokens
      · rw [if_pos h2, if_pos h2, ih]
      · rw [if_neg h2, if_neg h2, ih]
        simp
    · rw [if_neg h1, if_neg h1, ih]
      simp

/-! ### Unfolding lemmas for the hybrid passes -/

theorem split_oversized_fits (self : HybridChunker) (chunk : BaseChunk)
    (h : self.tokenizer.count_tokens (contextualizeChunk chunk) ≤ self.max_tokens) :
    self.split_oversized_chunk chunk = [chunk] := by
  simp only [HybridChunker.split_oversized_chunk]
  rw [if_pos h]

theorem split_oversized_apart (self : HybridChunker) (chunk : BaseChunk)
    (h : self.max_tokens < self.tokenizer.count_tokens (contextualizeChunk chunk))
    (hw : splitWhitespace chunk.text ≠ []) :
    self.split_oversized_chunk chunk =
      splitLoop self.tokenizer self.max_tokens chunk (splitWhitespace chunk.text) ""
        chunk.meta.start_offset chunk.meta.index := by
  have key := splitFinish_foldl self.tokenizer self.max_tokens chunk
    (splitWhitespace chunk.text) [] "" chunk.meta.start_offset chunk.meta.index
  calc self.split_oversized_chunk chunk
      = splitFinish chunk ((splitWhitespace chunk.text).foldl
          (splitStep self.tokenizer self.max_tokens chunk)
          ([], "", chunk.meta.start_offset, chunk.meta.index)) := by
        simp only [HybridChunker.split_oversized_chunk]
        rw [if_neg (by omega), if_neg (by simpa [List.isEmpty_iff] using hw)]
        rfl
    _ = [] ++ splitLoop self.tokenizer self.max_tokens chunk (splitWhitespace chunk.text) ""
          chunk.meta.start_offset chunk.meta.index := key
    _ = splitLoop self.tokenizer self.max_tokens chunk (splitWhitespace chunk.text) ""
          chunk.meta.start_offset chunk.meta.index := List.nil_append _

theorem merge_undersized_off (self : HybridChunker) (chunks : List BaseChunk)
    (h : self.merge_peers = false) :
    self.merge_undersized_peers chunks = chunks := by
  simp [HybridChunker.merge_undersized_peers, h]

theorem merge_undersized_nil (self : HybridChunker) :
    self.merge_undersized_peers [] = [] := by
  simp [HybridChunker.merge_undersized_peers]

theorem merge_undersized_on (self : HybridChunker) (c : BaseChunk) (rest : List BaseChunk)
    (h : self.merge_peers = true) :
    self.merge_undersized_peers (c :: rest) =
      reindexChunks (mergeLoop self.tokenizer self.max_tokens c rest) := by
  have key := mergeFinish_foldl self.tokenizer self.max_tokens rest [] c
  calc self.merge_undersized_peers (c :: rest)
      = reindexChunks (mergeFinish (rest.foldl (mergeStep self.tokenizer self.max_tokens)
          ([], some c))) := by
        simp only [HybridChunker.merge_undersized_peers]
        rw [if_neg (by simp [h]), List.foldl_cons]
        rfl
    _ = reindexChunks ([] ++ mergeLoop self.tokenizer self.max_tokens c rest) := by rw [key]
    _ = reindexChunks (mergeLoop self.tokenizer self.max_tokens c rest) := by
        rw [List.nil_append]

/-! ### Re-indexing lemmas -/

theorem enumFrom_map_reindex (l : List BaseChunk) :
    ∀ n, (l.enumFrom n).map (fun p => { p.2 with meta := { p.2.meta with index := p.1 } }) =
      reindexFrom n l := by
  induction l with
  | nil => intro n; rfl
  | cons c rest ih => intro n; simp [List.enumFrom_cons, reindexFrom, ih]

theorem reindexChunks_eq (l : List BaseChunk) : reindexChunks l = reindexFrom 0 l := by
  unfold reindexChunks
  rw [show l.enum = l.enumFrom 0 from rfl]
  exact enumFrom_map_reindex l 0

theorem length_reindexFrom (l : List BaseChunk) :
    ∀ n, (reindexFrom n l).length = l.length := by
  induction l with
  | nil => intro n; rfl
  | cons c rest ih => intro n; simp [reindexFrom, ih]

theorem map_index_reindexFrom (l : List BaseChunk) :
    ∀ n, (reindexFrom n l).map (fun c => c.meta.index) = List.range' n l.length := by
  induction l with
  | nil => intro n; rfl
  | cons c rest ih =>
    intro n
    simp [reindexFrom, List.range'_succ, ih]

theorem mem_reindexFrom (l : List BaseChunk) :
    ∀ n, ∀ x ∈ reindexFrom n l,
      ∃ y ∈ l, x.text = y.text ∧ x.meta.headings = y.meta.headings ∧
        x.meta.caption = y.meta.caption ∧ x.meta.start_offset = y.meta.start_offset ∧
        x.meta.end_offset = y.meta.end_offset := by
  induction l with
  | nil => intro n x hx; simp [reindexFrom] at hx
  | cons c rest ih =>
    intro n x hx
    rcases List.mem_cons.1 hx with h | h
    · exact ⟨c, List.mem_cons_self c rest, by subst h; simp⟩
    · rcases ih (n + 1) x h with ⟨y, hy, hprops⟩
      exact ⟨y, List.mem_cons_of_mem c hy, hprops⟩

/-! ### Dense index lemmas -/

theorem chunkNodes_indices (doc_name : String) (nodes : List DocumentNode) :
    ∀ off idx, (chunkNodes doc_name nodes off idx).map (fun c => c.meta.index) =
      List.range' idx (chunkNodes doc_name nodes off idx).length := by
  induction nodes with
  | nil => intro off idx; rfl
  | cons node rest ih =>
    intro off idx
    cases ht : node.text_content with
    | none =>
      simp only [chunkNodes, ht]
      exact ih off idx
    | some t =>
      by_cases hws : t.data.all Char.isWhitespace
      · simp only [chunkNodes, ht, if_pos hws]
        exact ih off idx
      · cases hp : node.position with
        | some pos =>
          simp only [chunkNodes, ht, if_neg hws, hp, List.map_cons, List.length_cons]
          rw [List.range'_succ, ih]
        | none =>
          simp only [chunkNodes, ht, if_neg hws, hp, List.map_cons, List.length_cons]
          rw [List.range'_succ, ih]

theorem hierarchical_dense (h : HierarchicalChunker) (doc : DoclingDocument) :
    denseIndices (h.chunk doc) := by
  unfold denseIndices HierarchicalChunker.chunk
  rw [List.range_eq_range', chunkNodes_indices]

/-- Claim C1: the structural chunker and the hybrid chunker with merge_peers on
always emit chunks with dense 0-based indices; with merge_peers off the hybrid
chunker keeps the indices of the split pass and density can fail (see the
counterexample). -/
theorem claim_C1_theorem :
    (∀ (h : HierarchicalChunker) (doc : DoclingDocument), denseIndices (h.chunk doc)) ∧
    (∀ (self : HybridChunker) (doc : DoclingDocument),
      self.merge_peers = true → denseIndices (self.chunk doc)) := by
  constructor
  · exact hierarchical_dense
  · intro self doc hm
    have h1 : self.chunk doc = self.merge_undersized_peers
        ((self.hierarchical.chunk doc).flatMap (fun c => self.split_oversized_chunk c)) := rfl
    rw [h1]
    cases hsc : (self.hierarchical.chunk doc).flatMap (fun c => self.split_oversized_chunk c) with
    | nil =>
      rw [merge_undersized_nil]
      rfl
    | cons c rest =>
      rw [merge_undersized_on self c rest hm, reindexChunks_eq]
      unfold denseIndices
      rw [map_index_reindexFrom, length_reindexFrom, List.range_eq_range']

/-- Claim C1 witness: the hybrid chunker with merge_peers on yields dense
indices on a concrete document. -/
theorem claim_C1_witness : denseIndices (hybridSpike.chunk docABC) :=
  claim_C1_theorem.2 hybridSpike docABC rfl

/-- Claim C1 counterexample: with merge_peers = false, splitting the two-word
paragraph of docTwoWords yields indices 0, 1 and the following structural chunk
keeps index 1, so the emitted indices are 0, 1, 1 and are not dense. -/
theorem claim_C1_counterexample :
    ((hybridNoMerge.chunk docTwoWords).map fun c => c.meta.index) = [0, 1, 1] ∧
    ¬ denseIndices (hybridNoMerge.chunk docTwoWords) := by
  constructor
  · decide
  · decide

/-! ### Contextualizer (claim C8) -/

theorem foldl_headings (hs : List String) :
    ∀ a : String, hs.foldl (fun acc h => acc ++ h ++ "\n") a = a ++ headingsBlock hs := by
  induction hs with
  | nil =>
    intro a
    simp [headingsBlock, String.append_empty]
  | cons h hs ih =>
    intro a
    rw [List.foldl_cons, ih, headingsBlock]
    simp [String.append_assoc]

/-- Claim C8: the contextualization of a chunk is each heading followed by a
newline, then the caption followed by a newline when present, then the chunk
text, absent sections contributing nothing; it is a pure function of the chunk
alone (it takes no tokenizer), and its result has the chunk text as a suffix. -/
theorem claim_C8_theorem : ∀ c : BaseChunk,
    contextualizeChunk c = contextualizeSpec c ∧
    ∃ p, contextualizeChunk c = p ++ c.text := by
  intro c
  constructor
  · simp only [contextualizeChunk, contextualizeSpec]
    rw [foldl_headings, String.empty_append]
    cases hc : c.meta.caption with
    | none => simp [String.append_empty]
    | some cap => simp [String.append_assoc]
  · exact ⟨_, rfl⟩

/-! ### Structural chunker behaviour (claim C7) -/

theorem chunkNodes_texts (doc_name : String) (nodes : List DocumentNode) :
    ∀ off idx, (chunkNodes doc_name nodes off idx).map (fun c => c.text) =
      nodes.filterMap keepNode := by
  induction nodes with
  | nil => intro off idx; rfl
  | cons node rest ih =>
    intro off idx
    cases ht : node.text_content with
    | none =>
      simp only [chunkNodes, ht, List.filterMap_cons, keepNode]
      exact ih off idx
    | some t =>
      by_cases hws : t.data.all Char.isWhitespace
      · simp only [chunkNodes, ht, if_pos hws, List.filterMap_cons, keepNode]
        exact ih off idx
      · cases hp : node.position with
        | some pos =>
          simp only [chunkNodes, ht, if_neg hws, hp, List.filterMap_cons, keepNode,
            List.map_cons]
          rw [ih]
        | none =>
          simp only [chunkNodes, ht, if_neg hws, hp, List.filterMap_cons, keepNode,
            List.map_cons]
          rw [ih]

/-- Claim C7: the structural chunker emits exactly one chunk per node whose
text is non-empty after trimming, in document order (the emitted texts are the
filtered node texts); on the three-paragraph document A, B, CD without
positions it synthesizes offsets (0,1), (2,3), (4,6) with indices 0, 1, 2, and
a whitespace-only node contributes no chunk. -/
theorem claim_C7_theorem :
    (∀ (h : HierarchicalChunker) (doc : DoclingDocument),
        (h.chunk doc).map (fun c => c.text) = doc.nodes.filterMap keepNode) ∧
    HierarchicalChunker.new.chunk docABCD =
      [⟨"A", ⟨"doc", [], none, 0, 1, 0⟩⟩, ⟨"B", ⟨"doc", [], none, 2, 3, 1⟩⟩,
       ⟨"CD", ⟨"doc", [], none, 4, 6, 2⟩⟩] ∧
    (HierarchicalChunker.new.chunk docBlank).map (fun c => c.text) = ["A", "B"] := by
  refine ⟨?_, by decide, by decide⟩
  intro h doc
  exact chunkNodes_texts doc.name doc.nodes 0 0

/-! ### Builder validation (claims C5, C9) -/

/-- Claim C5: building a HybridChunker fails exactly when the tokenizer is
absent or the effective budget is zero; every build error is a configuration
error; and in all other cases build succeeds with the requested settings.  The
chunk sequence itself is a total function, so iteration can never raise. -/
theorem claim_C5_theorem : ∀ b : HybridChunkerBuilder,
    ((∃ e, b.build = Except.error e) ↔
      (b.tokenizer = none ∨ ∃ t, b.tokenizer = some t ∧ b.max_tokens.getD t.max_tokens = 0)) ∧
    (∀ e, b.build = Except.error e → ∃ msg, e = ChunkingError.InvalidConfig msg) ∧
    (∀ t, b.tokenizer = some t → b.max_tokens.getD t.max_tokens ≠ 0 →
      ∃ c, b.build = Except.ok c ∧ c.tokenizer = t ∧
        c.max_tokens = b.max_tokens.getD t.max_tokens ∧ c.merge_peers = b.merge_peers) := by
  intro b
  cases htok : b.tokenizer with
  | none =>
    refine ⟨⟨fun _ => Or.inl rfl, fun _ => ?_⟩, ?_, ?_⟩
    · exact ⟨ChunkingError.InvalidConfig "tokenizer is required",
        by simp [HybridChunkerBuilder.build, htok]⟩
    · intro e he
      simp [HybridChunkerBuilder.build, htok] at he
      exact ⟨"tokenizer is required", he.symm⟩
    · intro t ht
      cases ht
  | some t =>
    by_cases hz : b.max_tokens.getD t.max_tokens = 0
    · refine ⟨⟨fun _ => Or.inr ⟨t, rfl, hz⟩, fun _ => ?_⟩, ?_, ?_⟩
      · exact ⟨ChunkingError.InvalidConfig "max_tokens must be greater than 0",
          by simp [HybridChunkerBuilder.build, htok, hz]⟩
      · intro e he
        simp [HybridChunkerBuilder.build, htok, hz] at he
        exact ⟨"max_tokens must be greater than 0", he.symm⟩
      · intro t2 ht2 hnz
        injection ht2 with h3
        subst h3
        exact absurd hz hnz
    · refine ⟨⟨?_, ?_⟩, ?_, ?_⟩
      · rintro ⟨e, he⟩
        simp [HybridChunkerBuilder.build, htok, hz] at he
      · rintro (h1 | ⟨t2, ht2, hz2⟩)
        · cases h1
        · injection ht2 with h3
          subst h3
          exact absurd hz2 hz
      · intro e he
        simp [HybridChunkerBuilder.build, htok, hz] at he
      · intro t2 ht2 hnz
        injection ht2 with h3
        subst h3
        refine ⟨{ tokenizer := t, max_tokens := b.max_tokens.getD t.max_tokens,
                  merge_peers := b.merge_peers, hierarchical := HierarchicalChunker.new },
                ?_, rfl, rfl, rfl⟩
        simp [HybridChunkerBuilder.build, htok, hz]

/-- Claim C5 witness: the fresh builder (no tokenizer) fails to build. -/
theorem claim_C5_witness : ∃ e, HybridChunkerBuilder.new.build = Except.error e :=
  (claim_C5_theorem HybridChunkerBuilder.new).1.mpr (Or.inl rfl)

/-- Claim C9: HybridChunker::new always succeeds, copies the tokenizer budget
without validating it (a budget of 0 is accepted), and enables merge_peers;
the builder path instead rejects an effective budget of 0. -/
theorem claim_C9_theorem : ∀ t : Tokenizer,
    (HybridChunker.new t).max_tokens = t.max_tokens ∧
    (HybridChunker.new t).merge_peers = true ∧
    (t.max_tokens = 0 →
      (HybridChunker.new t).max_tokens = 0 ∧
      ({ tokenizer := some t, max_tokens := none,
         merge_peers := true } : HybridChunkerBuilder).build =
        Except.error (ChunkingError.InvalidConfig "max_tokens must be greater than 0")) := by
  intro t
  refine ⟨rfl, rfl, fun h0 => ⟨?_, ?_⟩⟩
  · simp [HybridChunker.new, h0]
  · simp [HybridChunkerBuilder.build, h0]

/-- Claim C9 witness: the zero-budget tokenizer is accepted by new and rejected
by the builder. -/
theorem claim_C9_witness :
    (HybridChunker.new zeroTokenizer).max_tokens = 0 ∧
    ({ tokenizer := some zeroTokenizer, max_tokens := none,
       merge_peers := true } : HybridChunkerBuilder).build =
      Except.error (ChunkingError.InvalidConfig "max_tokens must be greater than 0") :=
  (claim_C9_theorem zeroTokenizer).2.2 rfl

/-! ### Hybrid equals structural when nothing splits and merging is off (claim C10) -/

theorem flatMap_id_of_fits (self : HybridChunker) :
    ∀ L : List BaseChunk,
      (∀ c ∈ L, self.tokenizer.count_tokens (contextualizeChunk c) ≤ self.max_tokens) →
      L.flatMap (fun c => self.split_oversized_chunk c) = L := by
  intro L
  induction L with
  | nil => intro _; rfl
  | cons c rest ih =>
    intro hall
    rw [List.flatMap_cons, split_oversized_fits self c (hall c (List.mem_cons_self c rest)),
      ih (fun x hx => hall x (List.mem_cons_of_mem c hx))]
    rfl

/-- Claim C10: with merge_peers off, when every structural chunk already fits
the budget, the hybrid output is chunk-for-chunk identical to the structural
output. -/
theorem claim_C10_theorem : ∀ (self : HybridChunker) (doc : DoclingDocument),
    self.merge_peers = false →
    (∀ c ∈ self.hierarchical.chunk doc,
        self.tokenizer.count_tokens (contextualizeChunk c) ≤ self.max_tokens) →
    self.chunk doc = self.hierarchical.chunk doc := by
  intro self doc hmp hall
  have h1 : self.chunk doc = self.merge_undersized_peers
      ((self.hierarchical.chunk doc).flatMap (fun c => self.split_oversized_chunk c)) := rfl
  rw [h1, flatMap_id_of_fits self _ hall, merge_undersized_off self _ hmp]

/-- Claim C10 witness: concrete agreement of the two chunkers. -/
theorem claim_C10_witness :
    hybridNoMergeBig.chunk docTwoWords = hybridNoMergeBig.hierarchical.chunk docTwoWords :=
  claim_C10_theorem hybridNoMergeBig docTwoWords rfl (by decide)

/-! ### Budget compliance machinery (claim C2) -/

theorem contextualizeChunk_eq_of (x y : BaseChunk) (ht : x.text = y.text)
    (hh : x.meta.headings = y.meta.headings) (hc : x.meta.caption = y.meta.caption) :
    contextualizeChunk x = contextualizeChunk y := by
  simp [contextualizeChunk, ht, hh, hc]

theorem splitLoop_fits_or_word (tokenizer : Tokenizer) (max_tokens : Nat) (chunk : BaseChunk)
    (ws : List String) :
    ∀ (cur : String) (s i : Nat),
      (∀ w ∈ ws, splitWhitespace w = [w]) →
      (cur = "" ∨
        tokenizer.count_tokens (contextualizeChunk { text := cur, meta := chunk.meta }) ≤
          max_tokens ∨
        splitWhitespace cur = [cur]) →
      ∀ x ∈ splitLoop tokenizer max_tokens chunk ws cur s i,
        tokenizer.count_tokens (contextualizeChunk x) ≤ max_tokens ∨
          splitWhitespace x.text = [x.text] := by
  induction ws with
  | nil =>
    intro cur s i _ hcur x hx
    simp only [splitLoop] at hx
    split at hx
    · simp at hx
    · rename_i hne
      simp at hx
      subst hx
      rcases hcur with h | h | h
      · exact absurd h hne
      · left
        rw [contextualizeChunk_flush]
        exact h
      · right
        exact h
  | cons w ws ih =>
    intro cur s i hws hcur x hx
    simp only [splitLoop] at hx
    by_cases hce : cur = ""
    · simp only [if_pos hce] at hx
      rw [if_neg (fun h => h.2 hce)] at hx
      exact ih w s i (fun v hv => hws v (List.mem_cons_of_mem w hv))
        (Or.inr (Or.inr (hws w (List.mem_cons_self w ws)))) x hx
    · simp only [if_neg hce] at hx
      by_cases hlt : max_tokens < tokenizer.count_tokens (contextualizeChunk
          { text := cur ++ " " ++ w, meta := chunk.meta })
      · rw [if_pos ⟨hlt, hce⟩] at hx
        rcases List.mem_cons.1 hx with h | h
        · subst h
          rcases hcur with he | hfit | hword
          · exact absurd he hce
          · left
            rw [contextualizeChunk_flush]
            exact hfit
          · right
            exact hword
        · exact ih w (s + cur.utf8ByteSize + 1) (i + 1)
            (fun v hv => hws v (List.mem_cons_of_mem w hv))
            (Or.inr (Or.inr (hws w (List.mem_cons_self w ws)))) x h
      · rw [if_neg (fun h => hlt h.1)] at hx
        refine ih (cur ++ " " ++ w) s i
          (fun v hv => hws v (List.mem_cons_of_mem w hv)) ?_ x hx
        right; left
        omega

theorem split_oversized_fits_or_word (self : HybridChunker) (chunk : BaseChunk)
    (hnw : ¬ chunk.text.data.all Char.isWhitespace) :
    ∀ x ∈ self.split_oversized_chunk chunk,
      self.tokenizer.count_tokens (contextualizeChunk x) ≤ self.max_tokens ∨
        splitWhitespace x.text = [x.text] := by
  intro x hx
  by_cases hfit : self.tokenizer.count_tokens (contextualizeChunk chunk) ≤ self.max_tokens
  · rw [split_oversized_fits self chunk hfit] at hx
    simp at hx
    subst hx
    exact Or.inl hfit
  · rw [split_oversized_apart self chunk (by omega)
      (splitWhitespace_ne_nil chunk.text hnw)] at hx
    exact splitLoop_fits_or_word self.tokenizer self.max_tokens chunk
      (splitWhitespace chunk.text) "" chunk.meta.start_offset chunk.meta.index
      (fun w hw => (mem_splitWhitespace_single chunk.text w hw).1) (Or.inl rfl) x hx

theorem chunkNodes_not_ws (doc_name : String) (nodes : List DocumentNode) :
    ∀ off idx c, c ∈ chunkNodes doc_name nodes off idx →
      ¬ c.text.data.all Char.isWhitespace := by
  induction nodes with
  | nil =>
    intro off idx c hc
    simp [chunkNodes] at hc
  | cons node rest ih =>
    intro off idx c hc
    cases ht : node.text_content with
    | none =>
      simp only [chunkNodes, ht] at hc
      exact ih _ _ c hc
    | some t =>
      by_cases hws : t.data.all Char.isWhitespace
      · simp only [chunkNodes, ht, if_pos hws] at hc
        exact ih _ _ c hc
      · cases hp : node.position with
        | some pos =>
          simp only [chunkNodes, ht, if_neg hws, hp] at hc
          rcases List.mem_cons.1 hc with h | h
          · subst h
            exact hws
          · exact ih _ _ c h
        | none =>
          simp only [chunkNodes, ht, if_neg hws, hp] at hc
          rcases List.mem_cons.1 hc with h | h
          · subst h
            exact hws
          · exact ih _ _ c h

theorem mergeLoop_fits_or_word (tokenizer : Tokenizer) (max_tokens : Nat)
    (input : List BaseChunk) :
    ∀ prev : BaseChunk,
      (tokenizer.count_tokens (contextualizeChunk prev) ≤ max_tokens ∨
        splitWhitespace prev.text = [prev.text]) →
      (∀ c ∈ input, tokenizer.count_tokens (contextualizeChunk c) ≤ max_tokens ∨
        splitWhitespace c.text = [c.text]) →
      ∀ x ∈ mergeLoop tokenizer max_tokens prev input,
        tokenizer.count_tokens (contextualizeChunk x) ≤ max_tokens ∨
          splitWhitespace x.text = [x.text] := by
  induction input with
  | nil =>
    intro prev hprev _ x hx
    simp only [mergeLoop] at hx
    simp at hx
    subst hx
    exact hprev
  | cons chunk rest ih =>
    intro prev hprev hall x hx
    simp only [mergeLoop] at hx
    split at hx
    · split at hx
      · rename_i hfit
        refine ih _ ?_ (fun c hc => hall c (List.mem_cons_of_mem chunk hc)) x hx
        left
        have heq : contextualizeChunk
            { text := prev.text ++ " " ++ chunk.text,
              meta := { prev.meta with end_offset := chunk.meta.end_offset } } =
            contextualizeChunk { text := prev.text ++ " " ++ chunk.text, meta := prev.meta } :=
          contextualizeChunk_eq_of _ _ rfl rfl rfl
        rw [heq]
        exact hfit
      · rcases List.mem_cons.1 hx with h | h
        · subst h
          exact hprev
        · exact ih chunk (hall chunk (List.mem_cons_self chunk rest))
            (fun c hc => hall c (List.mem_cons_of_mem chunk hc)) x h
    · rcases List.mem_cons.1 hx with h | h
      · subst h
        exact hprev
      · exact ih chunk (hall chunk (List.mem_cons_self chunk rest))
          (fun c hc => hall c (List.mem_cons_of_mem chunk hc)) x h

/-- Claim C2 (amended): every chunk the hybrid chunker emits either fits the
budget after contextualization or is a single whitespace-free word (the
irreducible case); and Pass B emits an irreducible single-word chunk as exactly
one chunk carrying the same text, doc_name, headings, caption, start_offset and
index, but with end_offset recomputed as start_offset plus the byte length of
the text — so not in general unchanged (see the counterexample). -/
theorem claim_C2_theorem :
    (∀ (self : HybridChunker) (doc : DoclingDocument), ∀ c ∈ self.chunk doc,
        self.tokenizer.count_tokens (contextualizeChunk c) ≤ self.max_tokens ∨
          splitWhitespace c.text = [c.text]) ∧
    (∀ (self : HybridChunker) (c : BaseChunk),
        splitWhitespace c.text = [c.text] →
        self.max_tokens < self.tokenizer.count_tokens (contextualizeChunk c) →
        self.split_oversized_chunk c =
          [{ text := c.text,
             meta := { c.meta with
                       end_offset := c.meta.start_offset + c.text.utf8ByteSize } }]) := by
  constructor
  · intro self doc c hc
    have h1 : self.chunk doc = self.merge_undersized_peers
        ((self.hierarchical.chunk doc).flatMap (fun x => self.split_oversized_chunk x)) := rfl
    rw [h1] at hc
    have hsplit : ∀ x ∈ (self.hierarchical.chunk doc).flatMap
        (fun x => self.split_oversized_chunk x),
        self.tokenizer.count_tokens (contextualizeChunk x) ≤ self.max_tokens ∨
          splitWhitespace x.text = [x.text] := by
      intro x hx
      rcases List.mem_flatMap.1 hx with ⟨y, hy, hxy⟩
      exact split_oversized_fits_or_word self y
        (chunkNodes_not_ws doc.name doc.nodes 0 0 y hy) x hxy
    cases hmp : self.merge_peers with
    | false =>
      rw [merge_undersized_off self _ hmp] at hc
      exact hsplit c hc
    | true =>
      cases hL : (self.hierarchical.chunk doc).flatMap
          (fun x => self.split_oversized_chunk x) with
      | nil =>
        rw [hL, merge_undersized_nil] at hc
        simp at hc
      | cons c0 rest =>
        rw [hL] at hsplit
        rw [hL, merge_undersized_on self c0 rest hmp, reindexChunks_eq] at hc
        rcases mem_reindexFrom _ 0 c hc with ⟨y, hy, hty, hhy, hcy, _, _⟩
        have hP := mergeLoop_fits_or_word self.tokenizer self.max_tokens rest c0
          (hsplit c0 (List.mem_cons_self c0 rest))
          (fun z hz => hsplit z (List.mem_cons_of_mem c0 hz)) y hy
        rcases hP with h | h
        · left
          rw [contextualizeChunk_eq_of c y hty hhy hcy]
          exact h
        · right
          rw [hty]
          exact h
  · intro self c hsw hover
    have hne : c.text ≠ "" :=
      (mem_splitWhitespace_single c.text c.text
        (by rw [hsw]; exact List.mem_singleton.2 rfl)).2
    rw [split_oversized_apart self c hover (by rw [hsw]; simp), hsw]
    have e1 : splitLoop self.tokenizer self.max_tokens c [c.text] ""
        c.meta.start_offset c.meta.index =
        [flushChunk c c.text c.meta.start_offset c.meta.index] := by
      simp only [splitLoop]
      simp [hne]
    rw [e1]
    rfl

/-- Claim C2 witness: a chunk of a concrete hybrid output satisfies the
budget-or-single-word disjunction. -/
theorem claim_C2_witness :
    hybridTight.tokenizer.count_tokens (contextualizeChunk chunkAB) ≤
      hybridTight.max_tokens ∨
    splitWhitespace chunkAB.text = [chunkAB.text] :=
  claim_C2_theorem.1 hybridTight docBigWord chunkAB (by decide)

/-- Claim C2 counterexample: on docBigWord the structural pass emits a single
irreducible chunk (one word, over budget) whose end_offset is the authoritative
999; Pass B does not emit it unchanged — it rebuilds it with end_offset 2 — so
the hybrid output differs from the structural output on this document. -/
theorem claim_C2_counterexample :
    HierarchicalChunker.new.chunk docBigWord = [chunkAB999] ∧
    splitWhitespace chunkAB999.text = [chunkAB999.text] ∧
    hybridTight.max_tokens <
      hybridTight.tokenizer.count_tokens (contextualizeChunk chunkAB999) ∧
    hybridTight.split_oversized_chunk chunkAB999 ≠ [chunkAB999] ∧
    hybridTight.chunk docBigWord ≠ HierarchicalChunker.new.chunk docBigWord := by
  refine ⟨by decide, by decide, by decide, by decide, by decide⟩

/-! ### Offset monotonicity machinery (claim C4) -/

theorem utf8ByteSize_empty : ("" : String).utf8ByteSize = 0 := rfl

theorem utf8ByteSize_mk (l : List Char) : (String.mk l).utf8ByteSize = charBytes l := by
  rw [utf8ByteSize_eq_charBytes]

theorem charBytes_cons (c : Char) (l : List Char) :
    charBytes (c :: l) = c.utf8Size + charBytes l := by
  simp [charBytes]

theorem extraAll_cons (w : String) (ws : List String) :
    extraAll (w :: ws) = 1 + w.utf8ByteSize + extraAll ws := by
  simp [extraAll]

theorem offsetsOk_mono (l : List BaseChunk) (lo lo2 : Nat) (hle : lo2 ≤ lo)
    (h : offsetsOk lo l) : offsetsOk lo2 l := by
  cases l with
  | nil => trivial
  | cons c rest => exact ⟨le_trans hle h.1, h.2.1, h.2.2⟩

theorem offsetsOk_append (l1 : List BaseChunk) :
    ∀ (lo mid : Nat) (l2 : List BaseChunk),
      offsetsOk lo l1 → (∀ c ∈ l1, c.meta.end_offset ≤ mid) → offsetsOk mid l2 →
      lo ≤ mid → offsetsOk lo (l1 ++ l2) := by
  induction l1 with
  | nil =>
    intro lo mid l2 _ _ h2 hle
    exact offsetsOk_mono l2 mid lo hle h2
  | cons c rest ih =>
    intro lo mid l2 h1 hb h2 _
    exact ⟨h1.1, h1.2.1,
      ih c.meta.end_offset mid l2 h1.2.2 (fun x hx => hb x (List.mem_cons_of_mem c hx)) h2
        (hb c (List.mem_cons_self c rest))⟩

theorem offsetsOk_nonOverlapping (l : List BaseChunk) :
    ∀ lo : Nat, offsetsOk lo l → nonOverlapping l := by
  induction l with
  | nil => intro lo _; trivial
  | cons c rest ih =>
    intro lo h
    cases rest with
    | nil => trivial
    | cons d rest2 => exact ⟨h.2.2.1, ih c.meta.end_offset h.2.2⟩

theorem budget_le (cur : String) (ws : List String) :
    (if cur = "" then joinLen ws else cur.utf8ByteSize + extraAll ws) ≤
      cur.utf8ByteSize + extraAll ws := by
  split
  · cases ws with
    | nil => simp [joinLen]
    | cons w ws2 =>
      rw [joinLen, extraAll_cons]
      omega
  · exact Nat.le_refl _

theorem splitLoop_offsets (tokenizer : Tokenizer) (max_tokens : Nat) (chunk : BaseChunk)
    (ws : List String) :
    ∀ (cur : String) (s i : Nat),
      offsetsOk s (splitLoop tokenizer max_tokens chunk ws cur s i) ∧
      ∀ x ∈ splitLoop tokenizer max_tokens chunk ws cur s i,
        x.meta.end_offset ≤
          s + (if cur = "" then joinLen ws else cur.utf8ByteSize + extraAll ws) := by
  induction ws with
  | nil =>
    intro cur s i
    simp only [splitLoop]
    by_cases hce : cur = ""
    · rw [if_pos hce]
      exact ⟨trivial, by intro x hx; simp at hx⟩
    · rw [if_neg hce]
      refine ⟨⟨Nat.le_refl s, Nat.le_add_right s _, trivial⟩, ?_⟩
      intro x hx
      simp at hx
      subst hx
      rw [if_neg hce]
      simp only [flushChunk, extraAll, List.map_nil, List.sum_nil]
      omega
  | cons w ws ih =>
    intro cur s i
    simp only [splitLoop]
    by_cases hce : cur = ""
    · simp only [if_pos hce]
      rw [if_neg (fun h => h.2 hce)]
      rcases ih w s i with ⟨hok, hbound⟩
      refine ⟨hok, ?_⟩
      intro x hx
      have h1 := hbound x hx
      have hb := budget_le w ws
      rw [joinLen]
      omega
    · simp only [if_neg hce]
      by_cases hlt : max_tokens < tokenizer.count_tokens (contextualizeChunk
          { text := cur ++ " " ++ w, meta := chunk.meta })
      · rw [if_pos ⟨hlt, hce⟩]
        rcases ih w (s + cur.utf8ByteSize + 1) (i + 1) with ⟨hok, hbound⟩
        constructor
        · refine ⟨Nat.le_refl s, Nat.le_add_right s _, ?_⟩
          exact offsetsOk_mono _ _ _ (Nat.le_succ _) hok
        · intro x hx
          rw [extraAll_cons]
          rcases List.mem_cons.1 hx with h | h
          · subst h
            simp only [flushChunk]
            omega
          · have h1 := hbound x h
            have hb := budget_le w ws
            omega
      · rw [if_neg (fun h => hlt h.1)]
        rcases ih (cur ++ " " ++ w) s i with ⟨hok, hbound⟩
        refine ⟨hok, ?_⟩
        intro x hx
        have h1 := hbound x hx
        have htest : (cur ++ " " ++ w).utf8ByteSize =
            cur.utf8ByteSize + 1 + w.utf8ByteSize := by
          rw [utf8ByteSize_append, utf8ByteSize_append, utf8ByteSize_space]
        have hne2 : ¬ (cur ++ " " ++ w) = "" := by
          intro h
          have h0 : (cur ++ " " ++ w).utf8ByteSize = 0 := by rw [h]; rfl
          omega
        rw [if_neg hne2] at h1
        rw [extraAll_cons]
        omega

theorem splitChars_bytes (l : List Char) :
    ((splitChars l).map charBytes).sum + (splitChars l).length ≤ charBytes l + 1 := by
  induction l with
  | nil => simp [splitChars_nil, charBytes]
  | cons c cs ih =>
    rw [splitChars_cons]
    have hpos := Char.utf8Size_pos c
    by_cases hws : c.isWhitespace
    · rw [if_pos hws]
      simp only [List.map_cons, List.sum_cons, List.length_cons, charBytes_cons]
      have hnilb : charBytes [] = 0 := rfl
      omega
    · rw [if_neg hws]
      cases hsc : splitChars cs with
      | nil => exact absurd hsc (splitChars_ne_nil cs)
      | cons w rest =>
        rw [hsc] at ih
        simp only [List.map_cons, List.sum_cons, List.length_cons, charBytes_cons] at *
        omega

theorem extraAll_map_mk (ws : List (List Char)) :
    extraAll (ws.map (fun w => String.mk w)) = ws.length + (ws.map charBytes).sum := by
  induction ws with
  | nil => rfl
  | cons w rest ih =>
    simp only [List.map_cons, extraAll_cons, utf8ByteSize_mk, List.sum_cons,
      List.length_cons, ih]
    omega

theorem joinLen_words_le (s : String) : joinLen (splitWhitespace s) ≤ s.utf8ByteSize := by
  rw [utf8ByteSize_eq_charBytes]
  unfold splitWhitespace
  cases hw : wordsOfChars s.data with
  | nil => simp [joinLen]
  | cons w rest =>
    have hsub : (wordsOfChars s.data).Sublist (splitChars s.data) := List.filter_sublist _
    rw [hw] at hsub
    have hsum : ((w :: rest).map charBytes).sum ≤ ((splitChars s.data).map charBytes).sum :=
      List.Sublist.sum_le_sum (List.Sublist.map charBytes hsub) (fun a _ => Nat.zero_le a)
    have hlen : (w :: rest).length ≤ (splitChars s.data).length :=
      List.Sublist.length_le hsub
    have hid := splitChars_bytes s.data
    simp only [List.map_cons, joinLen, utf8ByteSize_mk, extraAll_map_mk, List.sum_cons,
      List.length_cons, List.length_map] at *
    omega

theorem split_oversized_offsets (self : HybridChunker) (chunk : BaseChunk)
    (hend : chunk.meta.end_offset = chunk.meta.start_offset + chunk.text.utf8ByteSize) :
    offsetsOk chunk.meta.start_offset (self.split_oversized_chunk chunk) ∧
    ∀ x ∈ self.split_oversized_chunk chunk, x.meta.end_offset ≤ chunk.meta.end_offset := by
  by_cases hfit : self.tokenizer.count_tokens (contextualizeChunk chunk) ≤ self.max_tokens
  · rw [split_oversized_fits self chunk hfit]
    refine ⟨⟨Nat.le_refl _, by omega, trivial⟩, ?_⟩
    intro x hx
    simp at hx
    subst hx
    exact Nat.le_refl _
  · by_cases hwnil : splitWhitespace chunk.text = []
    · have heq : self.split_oversized_chunk chunk = [chunk] := by
        simp only [HybridChunker.split_oversized_chunk]
        rw [if_neg (by omega), if_pos (by simpa [List.isEmpty_iff] using hwnil)]
      rw [heq]
      refine ⟨⟨Nat.le_refl _, by omega, trivial⟩, ?_⟩
      intro x hx
      simp at hx
      subst hx
      exact Nat.le_refl _
    · rw [split_oversized_apart self chunk (by omega) hwnil]
      rcases splitLoop_offsets self.tokenizer self.max_tokens chunk
        (splitWhitespace chunk.text) "" chunk.meta.start_offset chunk.meta.index with
        ⟨hok, hbound⟩
      refine ⟨hok, ?_⟩
      intro x hx
      have h1 := hbound x hx
      rw [if_pos rfl] at h1
      have h2 := joinLen_words_le chunk.text
      omega

theorem flatMap_split_offsets (self : HybridChunker) (L : List BaseChunk) :
    ∀ lo : Nat,
      offsetsOk lo L →
      (∀ c ∈ L, c.meta.end_offset = c.meta.start_offset + c.text.utf8ByteSize) →
      offsetsOk lo (L.flatMap (fun c => self.split_oversized_chunk c)) := by
  induction L with
  | nil =>
    intro lo _ _
    simp only [List.flatMap_nil]
    trivial
  | cons c rest ih =>
    intro lo hok hend
    rw [List.flatMap_cons]
    rcases split_oversized_offsets self c (hend c (List.mem_cons_self c rest)) with
      ⟨hok1, hb1⟩
    refine offsetsOk_append _ lo c.meta.end_offset _
      (offsetsOk_mono _ _ _ hok.1 hok1) hb1
      (ih c.meta.end_offset hok.2.2 (fun x hx => hend x (List.mem_cons_of_mem c hx)))
      (le_trans hok.1 hok.2.1)

theorem mergeLoop_offsets (tokenizer : Tokenizer) (max_tokens : Nat)
    (input : List BaseChunk) :
    ∀ (prev : BaseChunk) (lo : Nat),
      offsetsOk lo (prev :: input) →
      offsetsOk lo (mergeLoop tokenizer max_tokens prev input) := by
  induction input with
  | nil =>
    intro prev lo h
    simp only [mergeLoop]
    exact ⟨h.1, h.2.1, trivial⟩
  | cons chunk rest ih =>
    intro prev lo h
    simp only [mergeLoop]
    split
    · split
      · exact ih _ lo ⟨h.1, le_trans h.2.1 (le_trans h.2.2.1 h.2.2.2.1), h.2.2.2.2⟩
      · exact ⟨h.1, h.2.1, ih chunk prev.meta.end_offset h.2.2⟩
    · exact ⟨h.1, h.2.1, ih chunk prev.meta.end_offset h.2.2⟩

theorem reindexFrom_offsets (l : List BaseChunk) :
    ∀ (n lo : Nat), offsetsOk lo l → offsetsOk lo (reindexFrom n l) := by
  induction l with
  | nil => intro n lo _; trivial
  | cons c rest ih => intro n lo h; exact ⟨h.1, h.2.1, ih (n + 1) c.meta.end_offset h.2.2⟩

theorem chunkNodes_offsets (doc_name : String) (nodes : List DocumentNode) :
    ∀ off idx, (∀ n ∈ nodes, n.position = none) →
      offsetsOk off (chunkNodes doc_name nodes off idx) ∧
      ∀ c ∈ chunkNodes doc_name nodes off idx,
        c.meta.end_offset = c.meta.start_offset + c.text.utf8ByteSize := by
  induction nodes with
  | nil =>
    intro off idx _
    exact ⟨trivial, by intro c hc; simp [chunkNodes] at hc⟩
  | cons node rest ih =>
    intro off idx hpos
    have hrest : ∀ n ∈ rest, n.position = none :=
      fun n hn => hpos n (List.mem_cons_of_mem node hn)
    have hnode : node.position = none := hpos node (List.mem_cons_self node rest)
    cases ht : node.text_content with
    | none =>
      simp only [chunkNodes, ht]
      exact ih off idx hrest
    | some t =>
      by_cases hws : t.data.all Char.isWhitespace
      · simp only [chunkNodes, ht, if_pos hws]
        exact ih off idx hrest
      · simp only [chunkNodes, ht, if_neg hws, hnode]
        rcases ih (off + t.utf8ByteSize + 1) (idx + 1) hrest with ⟨hok, hend⟩
        constructor
        · refine ⟨Nat.le_refl off, Nat.le_add_right off _, ?_⟩
          exact offsetsOk_mono _ _ _ (Nat.le_succ _) hok
        · intro c hc
          rcases List.mem_cons.1 hc with h | h
          · subst h
            rfl
          · exact hend c h

/-- Claim C4 (amended): on documents whose nodes carry no explicit source
positions (all offsets synthesized), every emitted sequence — structural, and
hybrid under any configuration — has non-overlapping weakly monotone offsets.
When nodes carry explicit positions the chunker copies them verbatim, so
out-of-order positions violate the invariant (see the counterexample). -/
theorem claim_C4_theorem : ∀ doc : DoclingDocument,
    (∀ n ∈ doc.nodes, n.position = none) →
    (∀ h : HierarchicalChunker, nonOverlapping (h.chunk doc)) ∧
    (∀ self : HybridChunker, nonOverlapping (self.chunk doc)) := by
  intro doc hpos
  have hstruct := chunkNodes_offsets doc.name doc.nodes 0 0 hpos
  constructor
  · intro h
    exact offsetsOk_nonOverlapping _ 0 hstruct.1
  · intro self
    have hflat : offsetsOk 0 ((self.hierarchical.chunk doc).flatMap
        (fun c => self.split_oversized_chunk c)) :=
      flatMap_split_offsets self (self.hierarchical.chunk doc) 0 hstruct.1 hstruct.2
    have h1 : self.chunk doc = self.merge_undersized_peers
        ((self.hierarchical.chunk doc).flatMap (fun c => self.split_oversized_chunk c)) := rfl
    rw [h1]
    cases hmp : self.merge_peers with
    | false =>
      rw [merge_undersized_off self _ hmp]
      exact offsetsOk_nonOverlapping _ 0 hflat
    | true =>
      cases hL : (self.hierarchical.chunk doc).flatMap
          (fun c => self.split_oversized_chunk c) with
      | nil =>
        rw [merge_undersized_nil]
        trivial
      | cons c0 rest =>
        rw [hL] at hflat
        rw [merge_undersized_on self c0 rest hmp, reindexChunks_eq]
        exact offsetsOk_nonOverlapping _ 0 (reindexFrom_offsets _ 0 0
          (mergeLoop_offsets self.tokenizer self.max_tokens rest c0 0 hflat))

/-- Claim C4 witness: a position-free document has non-overlapping offsets in
both chunkers. -/
theorem claim_C4_witness :
    (∀ n ∈ docAB.nodes, n.position = none) ∧
    nonOverlapping (HierarchicalChunker.new.chunk docAB) ∧
    nonOverlapping (hybridTight.chunk docAB) :=
  ⟨by decide, (claim_C4_theorem docAB (by decide)).1 HierarchicalChunker.new,
   (claim_C4_theorem docAB (by decide)).2 hybridTight⟩

/-- Claim C4 counterexample: explicit positions are copied as-is, so a document
whose nodes carry out-of-order positions yields overlapping offsets: the first
chunk ends at 200 while the second starts at 0. -/
theorem claim_C4_counterexample :
    ((HierarchicalChunker.new.chunk docBackwards).map
      (fun c => (c.meta.start_offset, c.meta.end_offset))) = [(100, 200), (0, 50)] ∧
    ¬ nonOverlapping (HierarchicalChunker.new.chunk docBackwards) := by
  refine ⟨by decide, by decide⟩

/-! ### Merge locality machinery (claim C6) -/

theorem mergeLoop_head (tokenizer : Tokenizer) (max_tokens : Nat)
    (input : List BaseChunk) :
    ∀ prev, ∃ y rest2, mergeLoop tokenizer max_tokens prev input = y :: rest2 ∧
      y.meta.headings = prev.meta.headings ∧ y.meta.caption = prev.meta.caption ∧
      (y.text = prev.text ∨ ∃ r, y.text = prev.text ++ " " ++ r) := by
  induction input with
  | nil =>
    intro prev
    exact ⟨prev, [], rfl, rfl, rfl, Or.inl rfl⟩
  | cons chunk rest ih =>
    intro prev
    simp only [mergeLoop]
    split
    · split
      · rcases ih ⟨prev.text ++ " " ++ chunk.text,
          { prev.meta with end_offset := chunk.meta.end_offset }⟩ with
          ⟨y, r2, heqa, hh, hc, ht⟩
        refine ⟨y, r2, heqa, hh, hc, ?_⟩
        rcases ht with h | ⟨r, hr⟩
        · exact Or.inr ⟨chunk.text, h⟩
        · refine Or.inr ⟨chunk.text ++ " " ++ r, ?_⟩
          rw [hr]
          simp [String.append_assoc]
      · exact ⟨prev, mergeLoop tokenizer max_tokens chunk rest, rfl, rfl, rfl, Or.inl rfl⟩
    · exact ⟨prev, mergeLoop tokenizer max_tokens chunk rest, rfl, rfl, rfl, Or.inl rfl⟩

theorem mergeLoop_chain (tokenizer : Tokenizer) (max_tokens : Nat)
    (input : List BaseChunk) :
    ∀ prev, List.Chain' (mergeBlocked tokenizer max_tokens)
      (mergeLoop tokenizer max_tokens prev input) := by
  induction input with
  | nil =>
    intro prev
    simp only [mergeLoop]
    exact List.chain'_singleton prev
  | cons chunk rest ih =>
    intro prev
    simp only [mergeLoop]
    split
    · rename_i hcm
      split
      · exact ih _
      · rename_i hover
        rcases mergeLoop_head tokenizer max_tokens rest chunk with ⟨y, r2, heqa, hh, hc, ht⟩
        rw [heqa]
        refine List.Chain'.cons ?_ (heqa ▸ ih chunk)
        intro _ _
        exact ⟨chunk.text, ht, by omega⟩
    · rename_i hcm
      rcases mergeLoop_head tokenizer max_tokens rest chunk with ⟨y, r2, heqa, hh, hc, ht⟩
      rw [heqa]
      refine List.Chain'.cons ?_ (heqa ▸ ih chunk)
      intro hh2 hc2
      exact absurd ⟨hh2.trans hh, hc2.trans hc⟩ hcm

theorem mergeBlocked_of (tokenizer : Tokenizer) (max_tokens : Nat) (a b a2 b2 : BaseChunk)
    (hta : a2.text = a.text) (hha : a2.meta.headings = a.meta.headings)
    (hca : a2.meta.caption = a.meta.caption) (htb : b2.text = b.text)
    (hhb : b2.meta.headings = b.meta.headings) (hcb : b2.meta.caption = b.meta.caption)
    (h : mergeBlocked tokenizer max_tokens a b) : mergeBlocked tokenizer max_tokens a2 b2 := by
  intro hh hc
  rcases h (by rw [← hha, hh, hhb]) (by rw [← hca, hc, hcb]) with ⟨t, hts, hcount⟩
  refine ⟨t, ?_, ?_⟩
  · rw [htb]
    exact hts
  · rw [show contextualizeChunk { text := a2.text ++ " " ++ t, meta := a2.meta } =
        contextualizeChunk { text := a.text ++ " " ++ t, meta := a.meta } from
      contextualizeChunk_eq_of _ _ (by rw [hta]) hha hca]
    exact hcount

theorem chain_reindexFrom (tokenizer : Tokenizer) (max_tokens : Nat) (l : List BaseChunk) :
    ∀ n, List.Chain' (mergeBlocked tokenizer max_tokens) l →
      List.Chain' (mergeBlocked tokenizer max_tokens) (reindexFrom n l) := by
  induction l with
  | nil => intro n _; exact List.chain'_nil
  | cons c rest ih =>
    intro n h
    cases rest with
    | nil => exact List.chain'_singleton _
    | cons d rest2 =>
      have htail := ih (n + 1) (List.chain'_cons.1 h).2
      rw [show reindexFrom n (c :: d :: rest2) =
          { c with meta := { c.meta with index := n } } ::
            { d with meta := { d.meta with index := n + 1 } } :: reindexFrom (n + 2) rest2
          from rfl]
      rw [show reindexFrom (n + 1) (d :: rest2) =
          { d with meta := { d.meta with index := n + 1 } } :: reindexFrom (n + 2) rest2
          from rfl] at htail
      exact List.Chain'.cons
        (mergeBlocked_of tokenizer max_tokens c d _ _ rfl rfl rfl rfl rfl rfl
          (List.chain'_cons.1 h).1)
        htail

theorem chain'_pair {R : BaseChunk → BaseChunk → Prop}
    (pre : List BaseChunk) (x y : BaseChunk) (post l : List BaseChunk)
    (hch : List.Chain' R l) (heq : l = pre ++ x :: y :: post) : R x y := by
  subst heq
  rcases List.chain'_append.1 hch with ⟨_, h2, _⟩
  exact (List.chain'_cons.1 h2).1

/-- Claim C6 (amended): in hybrid output with merge_peers on, every adjacent
pair with identical headings and caption was separated because a trial merge
exceeded the budget — but the trial that failed joined the left chunk with the
then-current successor, which is a leading part t of the final right chunk
(later merges may have extended it).  The full pair's trial merge itself need
not exceed the budget (see the counterexample). -/
theorem claim_C6_theorem :
    ∀ (self : HybridChunker) (doc : DoclingDocument)
      (pre : List BaseChunk) (x y : BaseChunk) (post : List BaseChunk),
      self.merge_peers = true →
      self.chunk doc = pre ++ x :: y :: post →
      x.meta.headings = y.meta.headings →
      x.meta.caption = y.meta.caption →
      ∃ t, (y.text = t ∨ ∃ r, y.text = t ++ " " ++ r) ∧
        self.max_tokens < self.tokenizer.count_tokens
          (contextualizeChunk { text := x.text ++ " " ++ t, meta := x.meta }) := by
  intro self doc pre x y post hmp heq hh hc
  have h1 : self.chunk doc = self.merge_undersized_peers
      ((self.hierarchical.chunk doc).flatMap (fun c => self.split_oversized_chunk c)) := rfl
  rw [h1] at heq
  cases hL : (self.hierarchical.chunk doc).flatMap (fun c => self.split_oversized_chunk c) with
  | nil =>
    rw [hL, merge_undersized_nil] at heq
    exact absurd heq (by simp)
  | cons c0 rest =>
    rw [hL, merge_undersized_on self c0 rest hmp, reindexChunks_eq] at heq
    have hchain : List.Chain' (mergeBlocked self.tokenizer self.max_tokens)
        (reindexFrom 0 (mergeLoop self.tokenizer self.max_tokens c0 rest)) :=
      chain_reindexFrom self.tokenizer self.max_tokens _ 0
        (mergeLoop_chain self.tokenizer self.max_tokens rest c0)
    exact chain'_pair pre x y post _ hchain heq hh hc

/-- Claim C6 witness: on the concrete spike-tokenizer document the adjacent
pair shares metadata and the blocking prefix t exists. -/
theorem claim_C6_witness :
    ∃ t, (chunkBC.text = t ∨ ∃ r, chunkBC.text = t ++ " " ++ r) ∧
      hybridSpike.max_tokens < hybridSpike.tokenizer.count_tokens
        (contextualizeChunk { text := chunkA.text ++ " " ++ t, meta := chunkA.meta }) :=
  claim_C6_theorem hybridSpike docABC [] chunkA chunkBC [] rfl (by decide) rfl rfl

/-- Claim C6 counterexample: the hybrid output on docABC is the pair
("a", "b c") with identical (empty) headings and caption, yet the trial merge
of the pair itself, "a b c", counts only 1 token under the spike tokenizer —
within the budget of 5.  The merge pass had rejected "a b" (10 tokens) and then
extended the right chunk, so the claim as stated fails. -/
theorem claim_C6_counterexample :
    hybridSpike.chunk docABC = [chunkA, chunkBC] ∧
    chunkA.meta.headings = chunkBC.meta.headings ∧
    chunkA.meta.caption = chunkBC.meta.caption ∧
    hybridSpike.tokenizer.count_tokens
      (contextualizeChunk { text := chunkA.text ++ " " ++ chunkBC.text,
                            meta := chunkA.meta }) ≤ hybridSpike.max_tokens := by
  refine ⟨by decide, rfl, rfl, by decide⟩
